import Mathlib

/-!
Verification of the pdfcraft i18n core: locale registry and path handling,
nested message-tree resolution, fallback merging, translator interpolation,
and the error-code registries.  Strings are modelled as lists of characters;
JavaScript objects as association lists with unique keys.
-/

set_option maxRecDepth 4000

/-- Strings are modelled as lists of characters. -/
abbrev Str := List Char

/-- Convert a Lean string literal into the character-list model. -/
def toL (s : String) : Str := s.toList

/-- `strStarts s p` is true when `p` is an initial segment of `s`
(JavaScript `s.startsWith(p)`). -/
def strStarts : Str → Str → Bool
  | _, [] => true
  | [], _ :: _ => false
  | a :: s, b :: p => a == b && strStarts s p

/-- `splitOnChar sep s` splits `s` at every occurrence of `sep`
(JavaScript `s.split(sep)` for a one-character separator): the separators are
dropped and the chunks between them are returned, so the result always has
one more chunk than there are separators. -/
def splitOnChar (sep : Char) : Str → List Str
  | [] => [[]]
  | c :: rest =>
    if c = sep then [] :: splitOnChar sep rest
    else
      match splitOnChar sep rest with
      | [] => [[c]]
      | h :: t => (c :: h) :: t

/-- `noChar sep s` is true when `sep` does not occur in `s`. -/
def noChar (sep : Char) (s : Str) : Bool := s.all (fun c => c != sep)

/-! ### Locale registry (src/unnamed/part_001, i18n config) -/

/-- The closed, ordered set of supported locale codes
(`export const locales = ['en','ja','ko','es','fr','de','zh','zh-TW','pt','ar']`). -/
def locales : List Str :=
  [toL "en", toL "ja", toL "ko", toL "es", toL "fr", toL "de",
   toL "zh", toL "zh-TW", toL "pt", toL "ar"]

/-- `isValidLocale(locale)`: exact membership test against the closed set. -/
def isValidLocale (locale : Str) : Bool := locales.contains locale

/-- `getLocaleFromPath(path)`: split the path on `/`, drop empty segments,
and return the first segment exactly when it is a supported locale code. -/
def getLocaleFromPath (path : Str) : Option Str :=
  let segments := (splitOnChar '/' path).filter (fun s => !s.isEmpty)
  match segments with
  | [] => none
  | first :: _ => if isValidLocale first then some first else none

/-- The alternation order of the locale-stripping regular expression in
`getLocalizedPath`: `^\/(en|ja|ko|es|fr|de|zh-TW|zh|pt|ar)(\/|$)`.
Note `zh-TW` is tried before its strict initial segment `zh`. -/
def altLocales : List Str :=
  [toL "en", toL "ja", toL "ko", toL "es", toL "fr", toL "de",
   toL "zh-TW", toL "zh", toL "pt", toL "ar"]

/-- The regex replacement `path.replace(/^\/(en|ja|ko|es|fr|de|zh-TW|zh|pt|ar)(\/|$)/, '/')`:
if the path begins with `/`, a locale code from the alternation (tried in
order), and then either `/` or the end of the string, the whole match is
replaced by a single `/`; otherwise the path is unchanged. -/
def stripLocaleSeg (path : Str) : Str :=
  match path with
  | '/' :: rest =>
    match altLocales.find? (fun c => rest == c || strStarts rest (c ++ ['/'])) with
    | some c => if rest == c then ['/'] else '/' :: rest.drop (c.length + 1)
    | none => path
  | _ => path

/-- The replacement `cleanPath.replace(/^\/+/, '/')`: a leading run of
slashes is collapsed to a single slash; a path with no leading slash is
unchanged. -/
def normalizeSlashes (s : Str) : Str :=
  match s with
  | '/' :: _ => '/' :: s.dropWhile (fun c => c == '/')
  | _ => s

/-- `getLocalizedPath(path, locale)`: strip any existing leading locale
segment, normalize leading slashes, and prepend `/locale`. -/
def getLocalizedPath (path locale : Str) : Str :=
  let cleanPath := stripLocaleSeg path
  let normalizedPath := if cleanPath == ['/'] then ['/'] else normalizeSlashes cleanPath
  '/' :: locale ++ (if normalizedPath == ['/'] then ['/'] else normalizedPath)

/-! ### Message trees (the `Record<string, unknown>` JSON bundles) -/

/-- A nested message tree: each node is either a leaf string or a further
mapping from keys to subtrees.  JavaScript objects have unique keys; the
mapping is modelled as an association list. -/
inductive MessageTree : Type where
  | leaf : Str → MessageTree
  | node : List (Str × MessageTree) → MessageTree

/-- First-match association-list lookup, the model of JavaScript property
access `obj[key]` (`none` models `undefined`). -/
def lookupKey : List (Str × MessageTree) → Str → Option MessageTree
  | [], _ => none
  | (k, v) :: rest, key => if k == key then some v else lookupKey rest key

/-- The entries of a tree; a leaf has none. -/
def entriesOf : MessageTree → List (Str × MessageTree)
  | .leaf _ => []
  | .node es => es

/-- The loop body of `getNestedValue`
(src/src/__tests__/properties/error-messages.property.test.ts, lines 41-53):
the cursor is `none` once a lookup missed (JavaScript `undefined`); a
remaining segment on a non-object cursor yields `undefined`; after the last
segment the cursor is returned only if it is a string. -/
def nestedWalk : Option MessageTree → List Str → Option Str
  | cur, [] =>
    match cur with
    | some (.leaf s) => some s
    | _ => none
  | cur, key :: rest =>
    match cur with
    | some (.node es) => nestedWalk (lookupKey es key) rest
    | _ => none

/-- `getNestedValue(obj, path)`: split the dot-path on `.` and walk the tree
segment by segment, returning the final string leaf or `undefined`. -/
def getNestedValue (tree : MessageTree) (path : Str) : Option Str :=
  nestedWalk (some tree) (splitOnChar '.' path)

/-- The specification-level resolver of §4.3, defined by direct structural
recursion on the tree: the leaf is returned only when every segment, the
final one included, lands on a string value; an absent key or a path that
continues past a leaf yields `none`. -/
def resolveSegs : MessageTree → List Str → Option Str
  | .leaf s, [] => some s
  | .node _, [] => none
  | .leaf _, _ :: _ => none
  | .node es, key :: rest =>
    match lookupKey es key with
    | some t => resolveSegs t rest
    | none => none

/-! ### Fallback merge (spec §4.4)

`mergeWithFallback` is exported from `src/lib/i18n/fallback`, whose body is
not in the repository snapshot, so the merge is modelled from the spec:
at each key present in either tree, if both sides hold nested trees the
merge recurses; if the primary side has the key its value wins; if the
primary is missing the key the base's subtree or leaf is used.  The model
is a pure function, so neither input is ever mutated. -/

/-- The entries of the base tree whose keys the primary tree lacks; they are
appended after the primary's (merged) entries. -/
def restEntries (es bs : List (Str × MessageTree)) : List (Str × MessageTree) :=
  bs.filter (fun p => (lookupKey es p.1).isNone)

mutual

/-- The primary tree's entries, each combined with the base's value at the
same key (the recursion of the §4.4 merge). -/
def mergeEntries : List (Str × MessageTree) → List (Str × MessageTree) → List (Str × MessageTree)
  | [], _ => []
  | (k, v) :: rest, bs => (k, mergeInto v (lookupKey bs k)) :: mergeEntries rest bs

/-- How a primary value combines with the base's optional value at the same
key: recurse when both sides hold nested trees, otherwise the primary's
value wins. -/
def mergeInto : MessageTree → Option MessageTree → MessageTree
  | .node nv, some (.node nbv) => .node (mergeEntries nv nbv ++ restEntries nv nbv)
  | v, _ => v

end

/-- Modelled from the spec: `mergeOver(primary, base)` (exported as
`mergeWithFallback`), the deep structural merge of §4.4. -/
def mergeOver (primary base : MessageTree) : MessageTree :=
  match primary, base with
  | .leaf s, _ => .leaf s
  | .node es, .leaf _ => .node es
  | .node es, .node bs => .node (mergeEntries es bs ++ restEntries es bs)

/-- Keys of an association list are pairwise distinct (JavaScript object
keys are unique). -/
def nodupKeys : List (Str × MessageTree) → Bool
  | [] => true
  | (k, _) :: rest => (lookupKey rest k).isNone && nodupKeys rest

mutual

/-- A well-formed tree: every node's keys are unique, recursively. -/
def WFb : MessageTree → Bool
  | .leaf _ => true
  | .node es => nodupKeys es && WFl es

/-- All subtrees of an entry list are well-formed. -/
def WFl : List (Str × MessageTree) → Bool
  | [] => true
  | (_, v) :: rest => WFb v && WFl rest

end

/-- Structural induction for `MessageTree`, by strong induction on size. -/
theorem MessageTree.ind (P : MessageTree → Prop)
    (hleaf : ∀ s, P (.leaf s))
    (hnode : ∀ es, (∀ p ∈ es, P p.2) → P (.node es)) :
    ∀ t, P t := by
  suffices h : ∀ n t, sizeOf t ≤ n → P t by
    intro t; exact h (sizeOf t) t le_rfl
  intro n
  induction n with
  | zero =>
    intro t h
    cases t with
    | leaf s => exact hleaf s
    | node es =>
      exfalso
      have : 0 < sizeOf (MessageTree.node es) := by
        simp
      omega
  | succ n ih =>
    intro t h
    cases t with
    | leaf s => exact hleaf s
    | node es =>
      apply hnode
      intro p hp
      apply ih
      have h1 : sizeOf p < sizeOf es := List.sizeOf_lt_of_mem hp
      have h2 : sizeOf p.2 < sizeOf p := by
        cases p with
        | mk k v => simp
      have h3 : sizeOf (MessageTree.node es) = 1 + sizeOf es := by simp
      omega

/-! ### Translator factory (spec §4.5)

`createTranslator` is exported from `src/lib/i18n/fallback`, whose body is
not in the repository snapshot, so the translator is modelled from the
spec: the bound function resolves the dot-path against the tree; a resolved
leaf has each `\x7b\x7bname\x7d\x7d` placeholder substituted with the matching entry of
the supplied variables when present and left as literal text when absent;
when resolution fails the dot-path itself is returned. -/

/-- First-match lookup in the supplied variables. -/
def lookupVar : List (Str × Str) → Str → Option Str
  | [], _ => none
  | (k, v) :: rest, key => if k == key then some v else lookupVar rest key

mutual

/-- Modelled from the spec: placeholder interpolation, scanning for an
opening `\x7b\x7b` delimiter. -/
def interpAux (vars : List (Str × Str)) : Str → Str
  | [] => []
  | c :: rest =>
    if c = '{' then
      match rest with
      | [] => [c]
      | c2 :: rest2 =>
        if c2 = '{' then interpIn vars [] rest2
        else c :: c2 :: interpAux vars rest2
    else c :: interpAux vars rest

/-- Inside an open placeholder: accumulate the name (reversed in `acc`)
until the closing `\x7d\x7d`; substitute the variable when present, otherwise
keep the placeholder as literal text; an unterminated placeholder is
emitted literally. -/
def interpIn (vars : List (Str × Str)) (acc : Str) : Str → Str
  | [] => '{' :: '{' :: acc.reverse
  | c :: rest =>
    if c = '}' then
      match rest with
      | [] => '{' :: '{' :: (acc.reverse ++ [c])
      | c2 :: rest2 =>
        if c2 = '}' then
          match lookupVar vars acc.reverse with
          | some v => v ++ interpAux vars rest2
          | none => '{' :: '{' :: acc.reverse ++ c :: c2 :: interpAux vars rest2
        else interpIn vars (c2 :: c :: acc) rest2
    else interpIn vars (c :: acc) rest

end

/-- Modelled from the spec: `createTranslator(tree)` returns the bound
function `(dotPath, variables) ↦ text`. -/
def createTranslator (tree : MessageTree) (dotPath : Str) (vars : List (Str × Str)) : Str :=
  match getNestedValue tree dotPath with
  | some s => interpAux vars s
  | none => dotPath

/-! ### Error code registry (spec §4.6)

`src/lib/pdf/errors.ts` is not in the repository snapshot (only its test
file is), so the registry is modelled from the spec and from the shape the
test fixes: a closed enumeration of error codes (one per failure condition
of the `ErrorMessages` interface of the types file), a total mapping
code → `errors.`-namespaced camelCase key, and a total mapping
code → non-empty English prose default. -/

/-- Modelled from the spec: the closed `PDFErrorCode` enumeration; one
member per failure condition named by the `ErrorMessages` interface in
src/unnamed/part_002. -/
inductive PDFErrorCode : Type where
  | FILE_TOO_LARGE
  | FILE_TYPE_INVALID
  | FILE_CORRUPTED
  | PROCESSING_FAILED
  | NETWORK_ERROR
deriving DecidableEq, Fintype

/-- Modelled from the spec: `getAllErrorCodes()`, the authoritative ordered
enumeration. -/
def getAllErrorCodes : List PDFErrorCode :=
  [.FILE_TOO_LARGE, .FILE_TYPE_INVALID, .FILE_CORRUPTED, .PROCESSING_FAILED, .NETWORK_ERROR]

/-- The enumeration name (string value) of each error code. -/
def codeName : PDFErrorCode → Str
  | .FILE_TOO_LARGE => toL "FILE_TOO_LARGE"
  | .FILE_TYPE_INVALID => toL "FILE_TYPE_INVALID"
  | .FILE_CORRUPTED => toL "FILE_CORRUPTED"
  | .PROCESSING_FAILED => toL "PROCESSING_FAILED"
  | .NETWORK_ERROR => toL "NETWORK_ERROR"

/-- Modelled from the spec: `ERROR_MESSAGE_KEYS`, the total mapping from
error code to `errors.`-namespaced translation key. -/
def ERROR_MESSAGE_KEYS : PDFErrorCode → Str
  | .FILE_TOO_LARGE => toL "errors.fileTooLarge"
  | .FILE_TYPE_INVALID => toL "errors.fileTypeInvalid"
  | .FILE_CORRUPTED => toL "errors.fileCorrupted"
  | .PROCESSING_FAILED => toL "errors.processingFailed"
  | .NETWORK_ERROR => toL "errors.networkError"

/-- Modelled from the spec: `DEFAULT_ERROR_MESSAGES`, the last-resort
English prose message for each error code. -/
def DEFAULT_ERROR_MESSAGES : PDFErrorCode → Str
  | .FILE_TOO_LARGE => toL "File is too large to process"
  | .FILE_TYPE_INVALID => toL "File type is not supported"
  | .FILE_CORRUPTED => toL "File appears to be corrupted"
  | .PROCESSING_FAILED => toL "Processing failed, please try again"
  | .NETWORK_ERROR => toL "A network error occurred"

/-- Modelled from the spec: `isValidErrorCode(candidate)`, the exact
membership test against the string values of `getAllErrorCodes()`. -/
def isValidErrorCode (candidate : Str) : Bool :=
  (getAllErrorCodes.map codeName).contains candidate

/-- An ASCII lowercase letter. -/
def isLowerAscii (c : Char) : Bool := 'a' ≤ c && c ≤ 'z'

/-- An ASCII letter of either case. -/
def isAlphaAscii (c : Char) : Bool := ('a' ≤ c && c ≤ 'z') || ('A' ≤ c && c ≤ 'Z')

/-- The camelCase convention the test demands of the key remainder:
the regular expression `^[a-z][a-zA-Z]*$`. -/
def isCamelIdent : Str → Bool
  | [] => false
  | c :: rest => isLowerAscii c && rest.all isAlphaAscii

/-! ### Message bundles and fallback resolution (spec §4.2, §4.4)

The per-locale `messages/<locale>.json` bundles are not in the repository
snapshot.  Modelled from the spec: every supported locale's bundle carries
an `errors` subtree with a non-empty leaf for every error key (spec
invariant 2 and §8).  `resolveWithFallback` is modelled from §4.4: resolve
against the candidate locale's tree merged over the base (English) tree,
falling back to the dot-path itself. -/

/-- An `errors` bundle holding the five error leaves. -/
def errBundle (s1 s2 s3 s4 s5 : Str) : MessageTree :=
  .node [(toL "errors", .node
    [(toL "fileTooLarge", .leaf s1),
     (toL "fileTypeInvalid", .leaf s2),
     (toL "fileCorrupted", .leaf s3),
     (toL "processingFailed", .leaf s4),
     (toL "networkError", .leaf s5)])]

/-- Modelled from the spec: `loadTree(locale)` — the cached message tree of
each supported locale; each bundle provides a non-empty translation of
every error key. -/
def loadTree (locale : Str) : MessageTree :=
  if locale == toL "en" then
    errBundle (toL "File is too large") (toL "Invalid file type") (toL "File is corrupted")
      (toL "Processing failed") (toL "Network error")
  else if locale == toL "ja" then
    errBundle (toL "ja fileTooLarge") (toL "ja fileTypeInvalid") (toL "ja fileCorrupted")
      (toL "ja processingFailed") (toL "ja networkError")
  else if locale == toL "ko" then
    errBundle (toL "ko fileTooLarge") (toL "ko fileTypeInvalid") (toL "ko fileCorrupted")
      (toL "ko processingFailed") (toL "ko networkError")
  else if locale == toL "es" then
    errBundle (toL "es fileTooLarge") (toL "es fileTypeInvalid") (toL "es fileCorrupted")
      (toL "es processingFailed") (toL "es networkError")
  else if locale == toL "fr" then
    errBundle (toL "fr fileTooLarge") (toL "fr fileTypeInvalid") (toL "fr fileCorrupted")
      (toL "fr processingFailed") (toL "fr networkError")
  else if locale == toL "de" then
    errBundle (toL "de fileTooLarge") (toL "de fileTypeInvalid") (toL "de fileCorrupted")
      (toL "de processingFailed") (toL "de networkError")
  else if locale == toL "zh" then
    errBundle (toL "zh fileTooLarge") (toL "zh fileTypeInvalid") (toL "zh fileCorrupted")
      (toL "zh processingFailed") (toL "zh networkError")
  else if locale == toL "zh-TW" then
    errBundle (toL "zhTW fileTooLarge") (toL "zhTW fileTypeInvalid") (toL "zhTW fileCorrupted")
      (toL "zhTW processingFailed") (toL "zhTW networkError")
  else if locale == toL "pt" then
    errBundle (toL "pt fileTooLarge") (toL "pt fileTypeInvalid") (toL "pt fileCorrupted")
      (toL "pt processingFailed") (toL "pt networkError")
  else if locale == toL "ar" then
    errBundle (toL "ar fileTooLarge") (toL "ar fileTypeInvalid") (toL "ar fileCorrupted")
      (toL "ar processingFailed") (toL "ar networkError")
  else .node []

/-- Modelled from the spec: `resolveWithFallback(locale, dotPath)` — the
candidate locale's tree merged over the base locale's, resolved via the
nested key resolver, with the dot-path itself as the final placeholder. -/
def resolveWithFallback (locale dotPath : Str) : Str :=
  match getNestedValue (mergeOver (loadTree locale) (loadTree (toL "en"))) dotPath with
  | some s => s
  | none => dotPath

/-! ### Tool content fallback (src/src/config/tool-content/index.ts)

The per-locale content data files (`./en` … `./ar`) are not part of the
core; `getToolContent`'s fallback logic is, and it is embedded here
parameterized over the nine per-locale content maps exactly as the
`contentMap` record literal holds them (note: no `zh-TW` entry). -/

/-- First-match association-list lookup for content maps
(JavaScript `record[key]`, with `none` for `undefined`). -/
def lookupContent {α : Type} : List (Str × α) → Str → Option α
  | [], _ => none
  | (k, v) :: rest, key => if k == key then some v else lookupContent rest key

/-- The nine per-locale tool-content maps imported by
src/src/config/tool-content/index.ts. -/
structure ToolContentMaps (α : Type) where
  en : List (Str × α)
  ja : List (Str × α)
  ko : List (Str × α)
  es : List (Str × α)
  fr : List (Str × α)
  de : List (Str × α)
  zh : List (Str × α)
  pt : List (Str × α)
  ar : List (Str × α)

/-- The `contentMap` record literal of `getToolContent`: its keys are the
nine locale codes, without `zh-TW`. -/
def contentMapLookup {α : Type} (m : ToolContentMaps α) (locale : Str) :
    Option (List (Str × α)) :=
  if locale == toL "en" then some m.en
  else if locale == toL "ja" then some m.ja
  else if locale == toL "ko" then some m.ko
  else if locale == toL "es" then some m.es
  else if locale == toL "fr" then some m.fr
  else if locale == toL "de" then some m.de
  else if locale == toL "zh" then some m.zh
  else if locale == toL "pt" then some m.pt
  else if locale == toL "ar" then some m.ar
  else none

/-- `getToolContent(locale, toolId)`: rewrite `zh-TW` to `zh`, consult the
effective locale's content map, and return its entry when present,
otherwise the English entry (possibly `undefined`). -/
def getToolContent {α : Type} (m : ToolContentMaps α) (locale toolId : Str) : Option α :=
  let effectiveLocale := if locale == toL "zh-TW" then toL "zh" else locale
  match contentMapLookup m effectiveLocale with
  | some localeContent =>
    match lookupContent localeContent toolId with
    | some c => some c
    | none => lookupContent m.en toolId
  | none => lookupContent m.en toolId

/-- The fallback order claimed of `getToolContent`, stated independently:
`zh-TW` is first rewritten to `zh`; the effective locale's content map (an
absent map acts as empty) is consulted for `toolId`; when it lacks the
entry the English entry is returned. -/
def toolContentSpec {α : Type} (m : ToolContentMaps α) (locale toolId : Str) : Option α :=
  let eff := if locale == toL "zh-TW" then toL "zh" else locale
  let effMap := (contentMapLookup m eff).getD []
  match lookupContent effMap toolId with
  | some c => some c
  | none => lookupContent m.en toolId

/-- The first non-empty segment of a path, exactly the `segments[0]` that
`getLocaleFromPath` inspects. -/
def firstSegment (path : Str) : Option Str :=
  ((splitOnChar '/' path).filter (fun s => !s.isEmpty)).head?

/-! ### Helper lemmas: splitting paths -/

theorem splitOnChar_sep (sep : Char) (s : Str) :
    splitOnChar sep (sep :: s) = [] :: splitOnChar sep s := by
  simp [splitOnChar]

theorem splitOnChar_ne_nil (sep : Char) (s : Str) : splitOnChar sep s ≠ [] := by
  cases s with
  | nil => simp [splitOnChar]
  | cons c rest =>
    by_cases hc : c = sep
    · simp [splitOnChar, hc]
    · simp only [splitOnChar, if_neg hc]
      cases hsp : splitOnChar sep rest with
      | nil => simp
      | cons h t => simp

theorem splitOnChar_app (sep : Char) (l s : Str) (hl : noChar sep l = true) :
    splitOnChar sep (l ++ sep :: s) = l :: splitOnChar sep s := by
  induction l with
  | nil => simpa using splitOnChar_sep sep s
  | cons c rest ih =>
    simp only [noChar, List.all_cons, Bool.and_eq_true, bne_iff_ne, ne_eq] at hl
    obtain ⟨hc, hrest⟩ := hl
    simp only [List.cons_append, splitOnChar, if_neg hc]
    rw [show rest.append (sep :: s) = rest ++ sep :: s from rfl,
      ih (by simpa [noChar] using hrest)]

theorem splitOnChar_noSep (sep : Char) (l : Str) (hl : noChar sep l = true) :
    splitOnChar sep l = [l] := by
  induction l with
  | nil => simp [splitOnChar]
  | cons c rest ih =>
    simp only [noChar, List.all_cons, Bool.and_eq_true, bne_iff_ne, ne_eq] at hl
    obtain ⟨hc, hrest⟩ := hl
    simp only [splitOnChar, if_neg hc]
    rw [ih (by simpa [noChar] using hrest)]

/-- Every supported locale code is slash-free and non-empty. -/
theorem locales_shape : ∀ x ∈ locales, noChar '/' x = true ∧ x ≠ [] := by decide

theorem isValidLocale_mem {l : Str} (h : isValidLocale l = true) : l ∈ locales :=
  List.mem_of_elem_eq_true h

theorem mem_isValidLocale {l : Str} (h : l ∈ locales) : isValidLocale l = true :=
  List.elem_eq_true_of_mem h

/-- Extraction succeeds on `/locale` followed by nothing or by a
slash-started remainder. -/
theorem getLocaleFromPath_seg (l s : Str) (hval : isValidLocale l = true)
    (hs : s = [] ∨ ∃ t, s = '/' :: t) :
    getLocaleFromPath ('/' :: (l ++ s)) = some l := by
  obtain ⟨hnc, hne⟩ := locales_shape l (isValidLocale_mem hval)
  have hempty : l.isEmpty = false := by
    cases l with
    | nil => exact absurd rfl hne
    | cons a b => rfl
  rcases hs with rfl | ⟨t, rfl⟩
  · simp only [List.append_nil, getLocaleFromPath, splitOnChar_sep, splitOnChar_noSep '/' l hnc]
    simp [hempty, hval]
  · simp only [getLocaleFromPath, splitOnChar_sep, splitOnChar_app '/' l t hnc]
    simp [hempty, hval]

/-- Stripping a locale from a slash-led path keeps the leading slash. -/
theorem stripLocaleSeg_slash (r : Str) : ∃ q, stripLocaleSeg ('/' :: r) = '/' :: q := by
  simp only [stripLocaleSeg]
  cases hf : altLocales.find? (fun c => r == c || strStarts r (c ++ ['/'])) with
  | none => exact ⟨r, rfl⟩
  | some c =>
    by_cases hr : r == c
    · exact ⟨[], by simp [hr]⟩
    · exact ⟨r.drop (c.length + 1), by simp [hr]⟩

/-- On an empty or slash-led path, `getLocalizedPath` produces
`/locale` followed by nothing or by a slash-led remainder. -/
theorem getLocalizedPath_shape (p l : Str) (hp : p = [] ∨ ∃ r, p = '/' :: r) :
    getLocalizedPath p l = '/' :: (l ++ []) ∨
      ∃ t, getLocalizedPath p l = '/' :: (l ++ '/' :: t) := by
  rcases hp with rfl | ⟨r, rfl⟩
  · left
    simp [getLocalizedPath, stripLocaleSeg, normalizeSlashes]
  · right
    obtain ⟨q, hq⟩ := stripLocaleSeg_slash r
    simp only [getLocalizedPath, hq]
    by_cases h1 : (('/' :: q : Str) == ['/']) = true
    · exact ⟨[], by simp [h1]⟩
    · have hnorm : normalizeSlashes ('/' :: q) = '/' :: (q.dropWhile (fun c => c == '/')) := by
        simp [normalizeSlashes]
      simp only [h1, if_false, Bool.false_eq_true, hnorm]
      by_cases h2 : (('/' :: q.dropWhile (fun c => c == '/') : Str) == ['/']) = true
      · exact ⟨[], by simp [h2]⟩
      · exact ⟨q.dropWhile (fun c => c == '/'), by simp [h2]⟩

/-- C3 (amended): for every supported locale `l` and every path `p` that is
empty or begins with `/`, extracting the locale from the path produced by
injecting `l` into `p` returns `l`:
`getLocaleFromPath (getLocalizedPath p l) = some l`. -/
theorem getLocalizedPath_roundTrip (p l : Str) (hl : l ∈ locales)
    (hp : p = [] ∨ ∃ r, p = '/' :: r) :
    getLocaleFromPath (getLocalizedPath p l) = some l := by
  have hval := mem_isValidLocale hl
  rcases getLocalizedPath_shape p l hp with h | ⟨t, h⟩
  · rw [h]; exact getLocaleFromPath_seg l [] hval (Or.inl rfl)
  · rw [h]; exact getLocaleFromPath_seg l ('/' :: t) hval (Or.inr ⟨t, rfl⟩)

/-- Witness for C3: the round trip at the concrete slash-led path `/about`
and the supported locale `ja`. -/
theorem getLocalizedPath_roundTrip_witness :
    getLocaleFromPath (getLocalizedPath (toL "/about") (toL "ja")) = some (toL "ja") :=
  getLocalizedPath_roundTrip (toL "/about") (toL "ja") (by decide)
    (Or.inr ⟨toL "about", by decide⟩)

/-- Counterexample for C3 as stated over every path string: for the path
`about` (no leading slash) and the supported locale `en`, injection yields
`/enabout`, whose first segment is not a locale, so extraction does not
return `en`. -/
theorem getLocalizedPath_roundTrip_cex :
    toL "en" ∈ locales ∧
      ¬ getLocaleFromPath (getLocalizedPath (toL "about") (toL "en")) = some (toL "en") := by
  constructor
  · decide
  · decide

/-- C9: `getLocaleFromPath` returns `some l` exactly when the first
non-empty path segment equals `l` and `l` is one of the 10 supported
codes (full-segment equality); concretely, a first segment `zh` maps to
`zh` and never to `zh-TW`, `zh-TW` maps to `zh-TW`, and segments that
merely extend or cut short a supported code (`zhx`, `zh-T`, `z`) are
rejected. -/
theorem getLocaleFromPath_exact :
    (∀ p l, getLocaleFromPath p = some l ↔ (firstSegment p = some l ∧ l ∈ locales)) ∧
    getLocaleFromPath (toL "/zh/doc") = some (toL "zh") ∧
    getLocaleFromPath (toL "/zh-TW/doc") = some (toL "zh-TW") ∧
    getLocaleFromPath (toL "/zhx/doc") = none ∧
    getLocaleFromPath (toL "/zh-T/doc") = none ∧
    getLocaleFromPath (toL "/z/doc") = none := by
  refine ⟨?_, by decide, by decide, by decide, by decide, by decide⟩
  intro p l
  simp only [getLocaleFromPath, firstSegment]
  cases hseg : (splitOnChar '/' p).filter (fun s => !s.isEmpty) with
  | nil => simp
  | cons first rest =>
    simp only [List.head?_cons]
    by_cases hv : isValidLocale first = true
    · simp only [hv, if_true]
      constructor
      · rintro h
        obtain rfl : first = l := by simpa using h
        exact ⟨rfl, isValidLocale_mem hv⟩
      · rintro ⟨h1, -⟩
        obtain rfl : first = l := by simpa using h1
        rfl
    · simp only [Bool.not_eq_true] at hv
      simp only [hv, Bool.false_eq_true, if_false]
      constructor
      · rintro h; cases h
      · rintro ⟨h1, h2⟩
        obtain rfl : first = l := by simpa using h1
        exact absurd (mem_isValidLocale h2) (by simp [hv])

/-- Witness for C9: the equivalence instantiated at the concrete path
`/ko/tools` and locale `ko`. -/
theorem getLocaleFromPath_exact_witness :
    getLocaleFromPath (toL "/ko/tools") = some (toL "ko") :=
  (getLocaleFromPath_exact.1 (toL "/ko/tools") (toL "ko")).mpr ⟨by decide, by decide⟩

/-! ### Helper lemmas: nested resolution -/

theorem nestedWalk_none (ks : List Str) : nestedWalk none ks = none := by
  cases ks <;> rfl

theorem nestedWalk_eq_resolveSegs (ks : List Str) :
    ∀ t : MessageTree, nestedWalk (some t) ks = resolveSegs t ks := by
  induction ks with
  | nil => intro t; cases t <;> rfl
  | cons k rest ih =>
    intro t
    cases t with
    | leaf s => rfl
    | node es =>
      simp only [nestedWalk, resolveSegs]
      cases hk : lookupKey es k with
      | none => simp [nestedWalk_none]
      | some t2 => simp [ih t2]

/-- C4: `getNestedValue` returns a leaf exactly as the §4.3 segment walk
prescribes — the leaf only when every dot-path segment, the final one
included, lands on a string; `none` (never an exception or a coercion: the
function is total into `Option`) when a segment is absent or the path
continues past a leaf.  Concretely, on `{a:{b:"x"}}` the path `a.b.c`
overruns the leaf and resolves to `none` while `a.b` resolves to `"x"`. -/
theorem getNestedValue_spec :
    (∀ (t : MessageTree) (p : Str),
        getNestedValue t p = resolveSegs t (splitOnChar '.' p)) ∧
    getNestedValue (.node [(toL "a", .node [(toL "b", .leaf (toL "x"))])]) (toL "a.b.c")
      = none ∧
    getNestedValue (.node [(toL "a", .node [(toL "b", .leaf (toL "x"))])]) (toL "a.b")
      = some (toL "x") := by
  refine ⟨?_, by decide, by decide⟩
  intro t p
  exact nestedWalk_eq_resolveSegs (splitOnChar '.' p) t

/-! ### Helper lemmas: interpolation -/

theorem interp_empty_aux : ∀ (N : Nat) (s acc : Str), s.length ≤ N →
    interpAux [] s = s ∧ interpIn [] acc s = '{' :: '{' :: (acc.reverse ++ s) := by
  intro N
  induction N with
  | zero =>
    intro s acc h
    have hs : s = [] := by
      cases s with
      | nil => rfl
      | cons c r => simp at h
    subst hs
    exact ⟨rfl, by simp [interpIn]⟩
  | succ N ih =>
    intro s acc h
    cases s with
    | nil => exact ⟨rfl, by simp [interpIn]⟩
    | cons c rest =>
      have hr : rest.length ≤ N := by
        simp only [List.length_cons] at h
        omega
      constructor
      · by_cases hc : c = '{'
        · subst hc
          cases rest with
          | nil => rfl
          | cons c2 rest2 =>
            have h2 : rest2.length ≤ N := by
              simp only [List.length_cons] at hr
              omega
            by_cases hc2 : c2 = '{'
            · subst hc2
              have h3 := (ih rest2 [] h2).2
              simp [interpAux, h3]
            · have h3 := (ih rest2 acc h2).1
              simp [interpAux, hc2, h3]
        · cases rest with
          | nil =>
            rw [interpAux.eq_2]
            simp [hc, interpAux]
          | cons c2 rest2 =>
            have h3 := (ih (c2 :: rest2) acc hr).1
            simp [interpAux, hc, h3]
      · by_cases hc : c = '}'
        · subst hc
          cases rest with
          | nil =>
            rw [interpIn.eq_2]
            simp
          | cons c2 rest2 =>
            have h2 : rest2.length ≤ N := by
              simp only [List.length_cons] at hr
              omega
            by_cases hc2 : c2 = '}'
            · subst hc2
              have h3 := (ih rest2 acc h2).1
              simp [interpIn, lookupVar, h3]
            · have h3 := (ih rest2 (c2 :: '}' :: acc) h2).2
              simp [interpIn, hc2, h3]
        · cases rest with
          | nil =>
            rw [interpIn.eq_2]
            simp [hc, interpIn]
          | cons c2 rest2 =>
            have h3 := (ih (c2 :: rest2) (c :: acc) hr).2
            simp [interpIn, hc, h3]

/-- C5: a translator bound to a tree substitutes each `\x7b\x7bname\x7d\x7d`
placeholder of a resolved leaf with the matching supplied variable and
leaves the placeholder as literal text when the variable is absent — in
particular interpolation with no variables at all returns every string
unchanged — and never throws (it is a total function).  Concretely, over
`\x7bgreet:"Hello \x7b\x7bname\x7d\x7d"\x7d` the translator returns `"Hello Ann"` for
variables `\x7bname:"Ann"\x7d` and the unchanged literal text with no
variables. -/
theorem createTranslator_interpolation :
    (∀ s : Str, interpAux [] s = s) ∧
    createTranslator (.node [(toL "greet", .leaf (toL "Hello \x7b\x7bname\x7d\x7d"))])
      (toL "greet") [(toL "name", toL "Ann")] = toL "Hello Ann" ∧
    createTranslator (.node [(toL "greet", .leaf (toL "Hello \x7b\x7bname\x7d\x7d"))])
      (toL "greet") [] = toL "Hello \x7b\x7bname\x7d\x7d" := by
  refine ⟨?_, by decide, by decide⟩
  intro s
  exact (interp_empty_aux s.length s [] le_rfl).1

/-! ### Helper lemmas: merging -/

theorem nodup_lookup (es : List (Str × MessageTree)) (h : nodupKeys es = true) :
    ∀ p ∈ es, lookupKey es p.1 = some p.2 := by
  induction es with
  | nil => intro p hp; cases hp
  | cons q rest ih =>
    obtain ⟨k, v⟩ := q
    simp only [nodupKeys, Bool.and_eq_true, Option.isNone_iff_eq_none] at h
    obtain ⟨hnone, hrest⟩ := h
    intro p hp
    rcases List.mem_cons.mp hp with rfl | hmem
    · simp [lookupKey]
    · have hlk := ih hrest p hmem
      simp only [lookupKey]
      by_cases hk : (k == p.1) = true
      · exfalso
        have hked : k = p.1 := by simpa using hk
        rw [hked] at hnone
        rw [hnone] at hlk
        cases hlk
      · simp [hk, hlk]

theorem WFl_mem (es : List (Str × MessageTree)) (h : WFl es = true) :
    ∀ p ∈ es, WFb p.2 = true := by
  induction es with
  | nil => intro p hp; cases hp
  | cons q rest ih =>
    obtain ⟨k, v⟩ := q
    simp only [WFl, Bool.and_eq_true] at h
    obtain ⟨hv, hrest⟩ := h
    intro p hp
    rcases List.mem_cons.mp hp with rfl | hmem
    · exact hv
    · exact ih hrest p hmem

theorem mergeEntries_lookup (es bs : List (Str × MessageTree)) (k : Str) :
    lookupKey (mergeEntries es bs) k
      = (lookupKey es k).map (fun v => mergeInto v (lookupKey bs k)) := by
  induction es with
  | nil => simp [mergeEntries, lookupKey]
  | cons q rest ih =>
    obtain ⟨k1, v⟩ := q
    simp only [mergeEntries, lookupKey]
    by_cases hk : (k1 == k) = true
    · have hked : k1 = k := by simpa using hk
      subst hked
      simp [hk]
    · simp [hk, ih]

theorem restEntries_lookup (es bs : List (Str × MessageTree)) (k : Str) :
    lookupKey (restEntries es bs) k
      = if (lookupKey es k).isSome then none else lookupKey bs k := by
  induction bs with
  | nil => simp [restEntries, lookupKey]
  | cons q rest ih =>
    obtain ⟨k1, v⟩ := q
    have ih2 : lookupKey (rest.filter fun p => (lookupKey es p.1).isNone) k
        = if (lookupKey es k).isSome then none else lookupKey rest k := ih
    simp only [restEntries, List.filter_cons]
    by_cases hk : (k1 == k) = true
    · have hked : k1 = k := by simpa using hk
      subst hked
      cases hlk : lookupKey es k1 with
      | none =>
        simp only [hlk, Option.isNone_none, if_true, Option.isSome_none,
          Bool.false_eq_true, if_false]
        simp [lookupKey, hk]
      | some w =>
        simp only [hlk, Option.isNone_some, Bool.false_eq_true, if_false,
          Option.isSome_some, if_true]
        rw [ih2]
        simp [hlk]
    · by_cases he : (lookupKey es k1).isNone = true
      · simp [he, lookupKey, hk, ih2]
      · simp only [Bool.not_eq_true] at he
        simp [he, lookupKey, hk, ih2]

theorem lookupKey_append (l1 l2 : List (Str × MessageTree)) (k : Str) :
    lookupKey (l1 ++ l2) k
      = (match lookupKey l1 k with
         | some v => some v
         | none => lookupKey l2 k) := by
  induction l1 with
  | nil => simp [lookupKey]
  | cons q rest ih =>
    obtain ⟨k1, v⟩ := q
    simp only [List.cons_append, lookupKey]
    by_cases hk : (k1 == k) = true
    · simp [hk]
    · simp [hk, ih]

theorem mergeInto_leaf (s : Str) (bv : Option MessageTree) :
    mergeInto (.leaf s) bv = .leaf s := by
  cases bv with
  | none => rfl
  | some b => cases b <;> rfl

theorem mergeInto_node_node (nv nbv : List (Str × MessageTree)) :
    mergeInto (.node nv) (some (.node nbv)) = mergeOver (.node nv) (.node nbv) := rfl

theorem mergeInto_self (v : MessageTree) (h : mergeOver v v = v) :
    mergeInto v (some v) = v := by
  cases v with
  | leaf s => rfl
  | node es => rw [mergeInto_node_node, h]

theorem mergeEntries_self (es1 es : List (Str × MessageTree))
    (h : ∀ p ∈ es1, lookupKey es p.1 = some p.2 ∧ mergeOver p.2 p.2 = p.2) :
    mergeEntries es1 es = es1 := by
  induction es1 with
  | nil => rfl
  | cons q rest ih =>
    obtain ⟨k, v⟩ := q
    simp only [mergeEntries]
    obtain ⟨hlk, hm⟩ := h (k, v) (List.mem_cons_self _ _)
    rw [show ((k, v) : Str × MessageTree).1 = k from rfl] at hlk
    rw [show ((k, v) : Str × MessageTree).2 = v from rfl] at hm
    rw [hlk, mergeInto_self v hm, ih (fun p hp => h p (List.mem_cons_of_mem _ hp))]

theorem restEntries_empty (es bs : List (Str × MessageTree))
    (h : ∀ p ∈ bs, (lookupKey es p.1).isSome = true) :
    restEntries es bs = [] := by
  rw [restEntries, List.filter_eq_nil_iff]
  intro p hp
  have hs := h p hp
  simp only [Option.isNone_iff_eq_none]
  intro hn
  rw [hn] at hs
  simp at hs

theorem mergeOver_self (t : MessageTree) (h : WFb t = true) : mergeOver t t = t := by
  revert h
  induction t using MessageTree.ind with
  | hleaf s => intro h; rfl
  | hnode es ih =>
    intro h
    simp only [WFb, Bool.and_eq_true] at h
    obtain ⟨hnd, hwfl⟩ := h
    have hlk := nodup_lookup es hnd
    have hwf := WFl_mem es hwfl
    show mergeOver (.node es) (.node es) = .node es
    simp only [mergeOver]
    rw [mergeEntries_self es es (fun p hp => ⟨hlk p hp, ih p hp (hwf p hp)⟩),
      restEntries_empty es es (fun p hp => by simp [hlk p hp])]
    simp

/-- C2: the deep merge is idempotent on well-formed trees
(`mergeOver t t = t`); for any two nodes, the merged node's keys are
exactly the union of both key sets; the primary's leaf wins on overlap;
at a key where both sides hold nested trees the merge recurses; where the
primary misses a key the base's subtree or leaf is used.  The model is a
pure function, so the operation builds a new tree and cannot mutate its
inputs. -/
theorem mergeOver_spec (t : MessageTree) (es bs : List (Str × MessageTree))
    (ht : WFb t = true) :
    mergeOver t t = t
    ∧ (∀ k, (lookupKey (entriesOf (mergeOver (.node es) (.node bs))) k).isSome
        = ((lookupKey es k).isSome || (lookupKey bs k).isSome))
    ∧ (∀ k s, lookupKey es k = some (.leaf s) →
        lookupKey (entriesOf (mergeOver (.node es) (.node bs))) k = some (.leaf s))
    ∧ (∀ k nv nbv, lookupKey es k = some (.node nv) → lookupKey bs k = some (.node nbv) →
        lookupKey (entriesOf (mergeOver (.node es) (.node bs))) k
          = some (mergeOver (.node nv) (.node nbv)))
    ∧ (∀ k, lookupKey es k = none →
        lookupKey (entriesOf (mergeOver (.node es) (.node bs))) k = lookupKey bs k) := by
  have hent : entriesOf (mergeOver (.node es) (.node bs))
      = mergeEntries es bs ++ restEntries es bs := rfl
  refine ⟨mergeOver_self t ht, ?_, ?_, ?_, ?_⟩
  · intro k
    rw [hent, lookupKey_append, mergeEntries_lookup, restEntries_lookup]
    cases hes : lookupKey es k with
    | some v => simp
    | none => simp
  · intro k s hk
    rw [hent, lookupKey_append, mergeEntries_lookup, hk]
    simp [mergeInto_leaf]
  · intro k nv nbv hk hb
    rw [hent, lookupKey_append, mergeEntries_lookup, hk, hb]
    simp [mergeInto_node_node]
  · intro k hk
    rw [hent, lookupKey_append, mergeEntries_lookup, restEntries_lookup, hk]
    simp

/-- Witness for C2: idempotence at a concrete two-level tree, and the
spec's merge scenario where `errors` is nested on both sides so the merge
recurses. -/
theorem mergeOver_spec_witness :
    mergeOver (.node [(toL "errors", .node [(toL "fileTooLarge", .leaf (toL "Too big"))])])
        (.node [(toL "errors", .node [(toL "fileTooLarge", .leaf (toL "Too big"))])])
      = .node [(toL "errors", .node [(toL "fileTooLarge", .leaf (toL "Too big"))])]
    ∧ lookupKey (entriesOf (mergeOver
        (.node [(toL "errors", .node [(toL "fileTooLarge", .leaf (toL "Too big"))])])
        (.node [(toL "errors", .node [(toL "fileTooLarge", .leaf (toL "File too large")),
          (toL "networkError", .leaf (toL "Network error"))])])))
        (toL "errors")
      = some (mergeOver (.node [(toL "fileTooLarge", .leaf (toL "Too big"))])
          (.node [(toL "fileTooLarge", .leaf (toL "File too large")),
            (toL "networkError", .leaf (toL "Network error"))])) := by
  constructor
  · exact (mergeOver_spec
      (.node [(toL "errors", .node [(toL "fileTooLarge", .leaf (toL "Too big"))])])
      [] [] (by decide)).1
  · exact (mergeOver_spec (.node [])
      [(toL "errors", .node [(toL "fileTooLarge", .leaf (toL "Too big"))])]
      [(toL "errors", .node [(toL "fileTooLarge", .leaf (toL "File too large")),
        (toL "networkError", .leaf (toL "Network error"))])] (by decide)).2.2.2.1
      (toL "errors") [(toL "fileTooLarge", .leaf (toL "Too big"))]
      [(toL "fileTooLarge", .leaf (toL "File too large")),
        (toL "networkError", .leaf (toL "Network error"))]
      (by rfl) (by rfl)

/-- C1: for every error code and every supported locale, the code's
message key resolves in the locale's tree merged over the English tree to
a non-empty leaf, which is exactly what `resolveWithFallback` returns. -/
theorem errorKeys_resolve : ∀ (c : PDFErrorCode), ∀ l ∈ locales,
    getNestedValue (mergeOver (loadTree l) (loadTree (toL "en"))) (ERROR_MESSAGE_KEYS c)
      = some (resolveWithFallback l (ERROR_MESSAGE_KEYS c))
    ∧ resolveWithFallback l (ERROR_MESSAGE_KEYS c) ≠ [] := by
  decide

/-- Witness for C1: the network-error key in the Japanese merged tree. -/
theorem errorKeys_resolve_witness :
    getNestedValue (mergeOver (loadTree (toL "ja")) (loadTree (toL "en")))
        (ERROR_MESSAGE_KEYS .NETWORK_ERROR)
      = some (resolveWithFallback (toL "ja") (ERROR_MESSAGE_KEYS .NETWORK_ERROR))
    ∧ resolveWithFallback (toL "ja") (ERROR_MESSAGE_KEYS .NETWORK_ERROR) ≠ [] :=
  errorKeys_resolve .NETWORK_ERROR (toL "ja") (by decide)

/-- C6: every error code's message key is non-empty, begins with the
reserved namespace `errors.`, and its remainder is camelCase
(`^[a-z][a-zA-Z]*$`). -/
theorem errorMessageKeys_wf : ∀ c : PDFErrorCode,
    ERROR_MESSAGE_KEYS c ≠ []
    ∧ strStarts (ERROR_MESSAGE_KEYS c) (toL "errors.") = true
    ∧ isCamelIdent ((ERROR_MESSAGE_KEYS c).drop 7) = true := by
  decide

/-- C7: every error code's last-resort default message is non-empty and
differs from the code's own enumeration name. -/
theorem defaultMessages_wf : ∀ c : PDFErrorCode,
    DEFAULT_ERROR_MESSAGES c ≠ [] ∧ DEFAULT_ERROR_MESSAGES c ≠ codeName c := by
  decide

/-- C8: `isValidErrorCode` accepts exactly the string values of the
members of `getAllErrorCodes()` — in particular every member is accepted —
and rejects everything else, including near-miss casing variants and
truncations of valid codes. -/
theorem isValidErrorCode_spec :
    (∀ s : Str, isValidErrorCode s = true ↔ s ∈ getAllErrorCodes.map codeName)
    ∧ (∀ c ∈ getAllErrorCodes, isValidErrorCode (codeName c) = true)
    ∧ isValidErrorCode (toL "file_too_large") = false
    ∧ isValidErrorCode (toL "File_Too_Large") = false
    ∧ isValidErrorCode (toL "FILE_TOO_LARG") = false := by
  refine ⟨?_, by decide, by decide, by decide, by decide⟩
  intro s
  constructor
  · exact fun h => List.mem_of_elem_eq_true h
  · exact fun h => List.elem_eq_true_of_mem h

/-- Witness for C8: the first error code's own name is accepted. -/
theorem isValidErrorCode_spec_witness :
    isValidErrorCode (codeName .FILE_TOO_LARGE) = true :=
  isValidErrorCode_spec.2.1 .FILE_TOO_LARGE (by decide)

/-- C10: `getToolContent` follows the fixed fallback order: `zh-TW` is
first rewritten to `zh` (Traditional Chinese receives the Simplified
Chinese content map, not its own and not English), then the effective
locale's content map is consulted, and when it lacks the tool the English
entry is returned — so the result is `none` only when English also lacks
the tool. -/
theorem getToolContent_fallback :
    ∀ (α : Type) (m : ToolContentMaps α) (l t : Str),
      getToolContent m l t = toolContentSpec m l t
      ∧ getToolContent m (toL "zh-TW") t = getToolContent m (toL "zh") t
      ∧ (getToolContent m l t = none → lookupContent m.en t = none) := by
  intro α m l t
  have heq : ∀ l2, getToolContent m l2 t = toolContentSpec m l2 t := by
    intro l2
    simp only [getToolContent, toolContentSpec]
    cases hc : contentMapLookup m (if l2 == toL "zh-TW" then toL "zh" else l2) with
    | none => simp [lookupContent]
    | some mp => simp
  refine ⟨heq l, ?_, ?_⟩
  · rw [heq (toL "zh-TW"), heq (toL "zh")]
    have h1 : ((toL "zh-TW" : Str) == toL "zh-TW") = true := by decide
    have h2 : ((toL "zh" : Str) == toL "zh-TW") = false := by decide
    simp only [toolContentSpec, h1, h2, if_true, Bool.false_eq_true, if_false]
  · intro h
    rw [heq l] at h
    simp only [toolContentSpec] at h
    cases hlc : lookupContent
        ((contentMapLookup m (if l == toL "zh-TW" then toL "zh" else l)).getD []) t with
    | some c => rw [hlc] at h; cases h
    | none => rw [hlc] at h; exact h

/-- Witness for C10: with every content map empty, the English miss
propagates to a `none` result. -/
theorem getToolContent_fallback_witness :
    lookupContent (ToolContentMaps.mk ([] : List (Str × Str)) [] [] [] [] [] [] [] []).en
      (toL "merge-pdf") = none :=
  (getToolContent_fallback Str (ToolContentMaps.mk [] [] [] [] [] [] [] [] [])
    (toL "ja") (toL "merge-pdf")).2.2 (by rfl)
